import Mathlib

/-!
Verification of the Merkle-tree core of the go-principals repository.

The Go source (Transaction, MerkleNode, MerkleTree, MerkleProof, NewMerkleNode,
NewMerkleTree, GenerateProof, VerifyProof) is shallowly embedded below.
Byte strings are `List Nat` with entries below 256; SHA-256 (Go crypto/sha256)
is implemented executably over such byte lists; 32-bit machine arithmetic is
modelled as `Nat` arithmetic reduced modulo 2^32.  Go's nullable node pointers
become `Option MerkleNode`; fallible operations (`NewMerkleTree`,
`GenerateProof`, which return `(value, error)` pairs in Go) return
`Except String`; the one place `VerifyProof` can read out of bounds
(`proof.Positions[i]` while ranging over `proof.Hashes`) is modelled by an
`Option` result, `none` standing for the Go runtime panic.
Go `while` loops whose iteration count is bounded by the length of the node
list are translated to fuel recursion with that length as fuel.
-/

set_option maxRecDepth 100000

abbrev Bytes := List Nat

/-! ### SHA-256 (crypto/sha256), executable over byte lists -/

/-- Truncation to a 32-bit machine word. -/
def w32 (n : Nat) : Nat := n % 4294967296

/-- 32-bit right rotation of a word `x` (assumed < 2^32) by `n` places. -/
def rotr32 (x n : Nat) : Nat := ((x >>> n) ||| (x <<< (32 - n))) % 4294967296

/-- 32-bit bitwise complement. -/
def not32 (x : Nat) : Nat := 4294967295 ^^^ x

/-- SHA-256 choice function. -/
def shCh (x y z : Nat) : Nat := (x &&& y) ^^^ (not32 x &&& z)

/-- SHA-256 majority function. -/
def shMaj (x y z : Nat) : Nat := (x &&& y) ^^^ (x &&& z) ^^^ (y &&& z)

/-- SHA-256 big sigma 0. -/
def bsig0 (x : Nat) : Nat := rotr32 x 2 ^^^ rotr32 x 13 ^^^ rotr32 x 22

/-- SHA-256 big sigma 1. -/
def bsig1 (x : Nat) : Nat := rotr32 x 6 ^^^ rotr32 x 11 ^^^ rotr32 x 25

/-- SHA-256 small sigma 0. -/
def ssig0 (x : Nat) : Nat := rotr32 x 7 ^^^ rotr32 x 18 ^^^ (x >>> 3)

/-- SHA-256 small sigma 1. -/
def ssig1 (x : Nat) : Nat := rotr32 x 17 ^^^ rotr32 x 19 ^^^ (x >>> 10)

/-- The SHA-256 round constants. -/
def sha256K : List Nat :=
  [1116352408, 1899447441, 3049323471, 3921009573, 961987163, 1508970993,
   2453635748, 2870763221, 3624381080, 310598401, 607225278, 1426881987,
   1925078388, 2162078206, 2614888103, 3248222580, 3835390401, 4022224774,
   264347078, 604807628, 770255983, 1249150122, 1555081692, 1996064986,
   2554220882, 2821834349, 2952996808, 3210313671, 3336571891, 3584528711,
   113926993, 338241895, 666307205, 773529912, 1294757372, 1396182291,
   1695183700, 1986661051, 2177026350, 2456956037, 2730485921, 2820302411,
   3259730800, 3345764771, 3516065817, 3600352804, 4094571909, 275423344,
   430227734, 506948616, 659060556, 883997877, 958139571, 1322822218,
   1537002063, 1747873779, 1955562222, 2024104815, 2227730452, 2361852424,
   2428436474, 2756734187, 3204031479, 3329325298]

/-- The SHA-256 initial state. -/
def sha256H0 : List Nat :=
  [1779033703, 3144134277, 1013904242, 2773480762, 1359893119, 2600822924,
   528734635, 1541459225]

/-- `n` big-endian bytes of the value `v`. -/
def beBytes (n v : Nat) : List Nat :=
  (List.range n).map (fun i => (v >>> (8 * (n - 1 - i))) % 256)

/-- Group bytes into big-endian 32-bit words. -/
def beWords : List Nat → List Nat
  | b0 :: b1 :: b2 :: b3 :: rest => (((b0 * 256 + b1) * 256 + b2) * 256 + b3) :: beWords rest
  | _ => []

/-- Split a word list into blocks of 16 words (fuel-bounded recursion). -/
def chunk16 : Nat → List Nat → List (List Nat)
  | 0, _ => []
  | _, [] => []
  | fuel + 1, ws => ws.take 16 :: chunk16 fuel (ws.drop 16)

/-- Extend a 16-word block by `fuel` message-schedule words. -/
def extendW : Nat → List Nat → List Nat
  | 0, w => w
  | fuel + 1, w =>
    extendW fuel (w ++ [w32 (ssig1 (w.getD (w.length - 2) 0) + w.getD (w.length - 7) 0 +
      ssig0 (w.getD (w.length - 15) 0) + w.getD (w.length - 16) 0)])

/-- The 64 SHA-256 compression rounds over a state `[a, b, c, d, e, f, g, h]`. -/
def rounds : List (Nat × Nat) → List Nat → List Nat
  | [], st => st
  | (k, w) :: rest, st =>
    match st with
    | [a, b, c, d, e, f, g, h] =>
      let t1 := w32 (h + bsig1 e + shCh e f g + k + w)
      let t2 := w32 (bsig0 a + shMaj a b c)
      rounds rest [w32 (t1 + t2), a, b, c, w32 (d + t1), e, f, g]
    | st => st

/-- One SHA-256 block step: compress a 16-word block into the running state. -/
def processBlock (hs : List Nat) (block : List Nat) : List Nat :=
  let w := extendW 48 block
  let st := rounds (sha256K.zip w) hs
  (hs.zip st).map (fun p => w32 (p.1 + p.2))

/-- SHA-256 padding: append 0x80, zeros to 56 mod 64, and the 64-bit bit length. -/
def sha256pad (msg : Bytes) : Bytes :=
  msg ++ 0x80 :: List.replicate ((119 - msg.length % 64) % 64) 0 ++ beBytes 8 (8 * msg.length)

/-- SHA-256 of a byte list, as its 32 digest bytes (Go `sha256.Sum256`). -/
def sha256 (msg : Bytes) : Bytes :=
  let ws := beWords (sha256pad msg)
  let blocks := chunk16 ws.length ws
  ((blocks.foldl processBlock sha256H0).map (beBytes 4)).flatten

/-! ### UTF-8 and hexadecimal encoding (Go `[]byte(string)`, `hex.EncodeToString`) -/

/-- UTF-8 encoding of one character. -/
def utf8Char (c : Char) : List Nat :=
  let n := c.toNat
  if n < 0x80 then [n]
  else if n < 0x800 then [0xC0 ||| (n >>> 6), 0x80 ||| (n &&& 0x3F)]
  else if n < 0x10000 then
    [0xE0 ||| (n >>> 12), 0x80 ||| ((n >>> 6) &&& 0x3F), 0x80 ||| (n &&& 0x3F)]
  else
    [0xF0 ||| (n >>> 18), 0x80 ||| ((n >>> 12) &&& 0x3F), 0x80 ||| ((n >>> 6) &&& 0x3F),
     0x80 ||| (n &&& 0x3F)]

/-- UTF-8 bytes of a string (the Go conversion `[]byte(s)`). -/
def utf8Bytes (s : String) : Bytes := (s.data.map utf8Char).flatten

/-- The lowercase hexadecimal digit table of Go `encoding/hex`. -/
def hexTable : List Char := "0123456789abcdef".data

/-- Two hex characters per byte: high nibble then low nibble, as in Go
`hex.EncodeToString` (`hextable[b>>4]`, `hextable[b&0x0f]`). -/
def hexChars : List Nat → List Char
  | [] => []
  | b :: rest => hexTable.getD (b / 16) 'x' :: hexTable.getD (b % 16) 'x' :: hexChars rest

/-- Go `hex.EncodeToString` over a byte list. -/
def hexEncode (l : Bytes) : String := String.mk (hexChars l)

/-! ### The data model (Go structs) -/

/-- Go `Transaction`.  `Amount` is a `float64` in Go, used only through its
fixed-precision rendering `%.2f` inside `Transaction.String`; it is modelled
here by that decimal rendering (e.g. `"100.50"`), which is the only way the
field ever reaches the Merkle-tree core. -/
structure Transaction where
  ID : String
  From : String
  To : String
  Amount : String

/-- Go `Transaction.String()`: `fmt.Sprintf("%s:%s->%s:%.2f", ...)`. -/
def Transaction.str (t : Transaction) : String :=
  t.ID ++ ":" ++ t.From ++ "->" ++ t.To ++ ":" ++ t.Amount

/-- Go `Transaction.Hash()`: SHA-256 of the byte rendering of `String()`. -/
def Transaction.Hash (t : Transaction) : Bytes := sha256 (utf8Bytes t.str)

/-- Go `MerkleNode`: nullable child pointers and a hash. -/
inductive MerkleNode where
  | mk (Left : Option MerkleNode) (Right : Option MerkleNode) (Hash : Bytes)

/-- The `Left` field of a `MerkleNode`. -/
def MerkleNode.Left : MerkleNode → Option MerkleNode
  | .mk l _ _ => l

/-- The `Right` field of a `MerkleNode`. -/
def MerkleNode.Right : MerkleNode → Option MerkleNode
  | .mk _ r _ => r

/-- The `Hash` field of a `MerkleNode`. -/
def MerkleNode.Hash : MerkleNode → Bytes
  | .mk _ _ h => h

/-- Default node, standing for Go's zero value where an index is total. -/
def dnode : MerkleNode := .mk none none []

/-- The hash of a nullable node, empty for `nil` (what Go's
`append(prevHashes, child.Hash...)` contributes). -/
def optHash : Option MerkleNode → Bytes
  | none => []
  | some n => n.Hash

/-- Go `MerkleTree`. -/
structure MerkleTree where
  Root : MerkleNode
  Transactions : List Transaction
  Leaves : List MerkleNode

/-- Go `MerkleProof`: sibling hashes and positions
(`true` = sibling on the right, `false` = sibling on the left). -/
structure MerkleProof where
  Hashes : List Bytes
  Positions : List Bool

/-! ### Construction (Go `NewMerkleNode`, `NewMerkleTree`) -/

/-- Go `NewMerkleNode`: with no children the data is used as the hash
directly (leaf, already hashed); otherwise the hash is SHA-256 of the
concatenated child hashes (nil children contributing nothing). -/
def NewMerkleNode : Option MerkleNode → Option MerkleNode → Bytes → MerkleNode
  | none, none, data => .mk none none data
  | left, right, _ => .mk left right (sha256 (optHash left ++ optHash right))

/-- The inner pairing loop of tree construction: combine consecutive pairs
(`NewMerkleNode(nodes[i], nodes[i+1], nil)` for `i = 0, 2, 4, ...`).  Call
sites always pass lists of even length; on a trailing singleton (where Go
would read `nodes[i+1]` out of range) the singleton is dropped. -/
def pairUp : List MerkleNode → List MerkleNode
  | a :: b :: rest => NewMerkleNode (some a) (some b) [] :: pairUp rest
  | _ => []

/-- Leaf-level padding (Go lines `if len(nodes)%2 != 0 { nodes = append(nodes,
nodes[len(nodes)-1]) }`): duplicate the last node whenever the count is odd,
including a lone single node. -/
def padLeaves (nodes : List MerkleNode) : List MerkleNode :=
  if nodes.length % 2 ≠ 0 then nodes ++ nodes.drop (nodes.length - 1) else nodes

/-- Inner-level padding (Go `if len(level)%2 != 0 && len(level) > 1`):
duplicate the last node only when the count is odd and greater than one. -/
def padLevel (level : List MerkleNode) : List MerkleNode :=
  if level.length % 2 ≠ 0 ∧ level.length > 1 then level ++ level.drop (level.length - 1)
  else level

/-- The `for len(nodes) > 1` loop of `NewMerkleTree`: pair the level, pad it,
repeat.  The fuel (the initial node count, which strictly exceeds the number
of iterations) makes the recursion structural. -/
def buildLevels : Nat → List MerkleNode → List MerkleNode
  | 0, nodes => nodes
  | fuel + 1, nodes =>
    if nodes.length > 1 then buildLevels fuel (padLevel (pairUp nodes)) else nodes

/-- Go `NewMerkleTree`: error on an empty transaction list; otherwise wrap
each transaction hash in a leaf node, pad the leaf level if odd, and reduce
level by level to a single root. -/
def NewMerkleTree (transactions : List Transaction) : Except String MerkleTree :=
  if transactions.length = 0 then .error "cannot create Merkle tree with no transactions"
  else
    let leaves := transactions.map fun tx => NewMerkleNode none none tx.Hash
    let nodes := padLeaves leaves
    .ok ⟨(buildLevels nodes.length nodes).headD dnode, transactions, leaves⟩

/-! ### Proof generation (Go `GenerateProof`) -/

/-- One level pass of `GenerateProof`: walk the pairs at positions
`i, i+2, ...`; at the pair containing `currentIndex` record the sibling hash
and its position and halve the index; rebuild the parent level alongside.
Returns (hashes, positions, new current index, parent level). -/
def genLevel : List MerkleNode → Nat → Nat → List Bytes × List Bool × Nat × List MerkleNode
  | a :: b :: rest, i, currentIndex =>
    let s :=
      if i = currentIndex then ([b.Hash], [true], i / 2)
      else if i + 1 = currentIndex then ([a.Hash], [false], i / 2)
      else ([], [], currentIndex)
    let t := genLevel rest (i + 2) s.2.2
    (s.1 ++ t.1, s.2.1 ++ t.2.1, t.2.2.1, NewMerkleNode (some a) (some b) [] :: t.2.2.2)
  | _, _, currentIndex => ([], [], currentIndex, [])

/-- The `for len(nodes) > 1` loop of `GenerateProof`: per level, collect the
proof entries of `genLevel` and continue on the padded parent level.  Fuel as
in `buildLevels`. -/
def genLoop : Nat → List MerkleNode → Nat → List Bytes × List Bool
  | 0, _, _ => ([], [])
  | fuel + 1, nodes, currentIndex =>
    if nodes.length > 1 then
      let g := genLevel nodes 0 currentIndex
      let rest := genLoop fuel (padLevel g.2.2.2) g.2.2.1
      (g.1 ++ rest.1, g.2.1 ++ rest.2)
    else ([], [])

/-- Go `GenerateProof`: bounds-check the index, copy the leaves, pad the leaf
level if odd (same unconditional-on-one rule as construction), then ascend. -/
def MerkleTree.GenerateProof (mt : MerkleTree) (txIndex : Int) : Except String MerkleProof :=
  if txIndex < 0 ∨ (mt.Transactions.length : Int) ≤ txIndex then
    .error "transaction index out of bounds"
  else
    let nodes := padLeaves mt.Leaves
    let r := genLoop nodes.length nodes txIndex.toNat
    .ok ⟨r.1, r.2⟩

/-! ### Proof verification (Go `VerifyProof`) -/

/-- The verification loop: hash the running digest with each sibling, on the
side the position flag dictates.  Go indexes `proof.Positions[i]` while
ranging over `proof.Hashes`; when `Positions` runs out first that read is out
of range and panics, modelled by `none`. -/
def verifyLoop : Bytes → List Bytes → List Bool → Option Bytes
  | currentHash, [], _ => some currentHash
  | _, _ :: _, [] => none
  | currentHash, siblingHash :: hs, pos :: ps =>
    verifyLoop (sha256 (if pos then currentHash ++ siblingHash else siblingHash ++ currentHash))
      hs ps

/-- Go `VerifyProof`: fold the proof into the leaf digest and compare the
result with the claimed root by hex encoding.  `none` is the Go panic on a
proof whose `Positions` list is shorter than its `Hashes` list. -/
def VerifyProof (txHash : Bytes) (proof : MerkleProof) (rootHash : Bytes) : Option Bool :=
  (verifyLoop txHash proof.Hashes proof.Positions).map fun currentHash =>
    decide (hexEncode currentHash = hexEncode rootHash)

/-! ### The padding rule as the specification words it (for refinement claims) -/

/-- Modelled from the spec: the construction loop with the spec's padding rule
applied uniformly at every level, starting from the leaf level: duplicate the
last node iff the level is odd AND has more than one node; a level of exactly
one node is the root and stops the loop. -/
def buildLevelsSpec : Nat → List MerkleNode → List MerkleNode
  | 0, nodes => nodes
  | fuel + 1, nodes =>
    if nodes.length > 1 then buildLevelsSpec fuel (pairUp (padLevel nodes)) else nodes

/-- Modelled from the spec: `NewMerkleTree` with the spec's uniform padding
rule (`padLevel`, guarded by `> 1`, also at the leaf level), for comparison
with the code's `NewMerkleTree`. -/
def NewMerkleTreeSpec (transactions : List Transaction) : Except String MerkleTree :=
  if transactions.length = 0 then .error "cannot create Merkle tree with no transactions"
  else
    let leaves := transactions.map fun tx => NewMerkleNode none none tx.Hash
    .ok ⟨(buildLevelsSpec (padLevel leaves).length leaves).headD dnode, transactions, leaves⟩

/-! ### Structural predicates on built trees -/

/-- Every internal node of the tree hashes to SHA-256 of the concatenation of
its two children's digests; nodes with exactly one child do not occur. -/
def wellHashed : MerkleNode → Bool
  | .mk (some l) (some r) h => (h == sha256 (l.Hash ++ r.Hash)) && wellHashed l && wellHashed r
  | .mk none none _ => true
  | .mk _ _ _ => false

/-- Every childless node of the tree carries one of the given digests
verbatim. -/
def leafDigestsIn (digests : List Bytes) : MerkleNode → Bool
  | .mk none none h => decide (h ∈ digests)
  | .mk (some l) (some r) _ => leafDigestsIn digests l && leafDigestsIn digests r
  | .mk (some l) none _ => leafDigestsIn digests l
  | .mk none (some r) _ => leafDigestsIn digests r

/-- A node is good for a digest list when it is well hashed and wraps only
digests from the list at its leaves. -/
def goodNode (digests : List Bytes) (n : MerkleNode) : Prop :=
  wellHashed n = true ∧ leafDigestsIn digests n = true

/-! ### Concrete transactions (from the repository's demo programs) -/

/-- Demo transaction 1 (amount 100.50 rendered by `%.2f`). -/
def txA : Transaction := ⟨"tx001", "Alice", "Bob", "100.50"⟩

/-- Demo transaction 2. -/
def txB : Transaction := ⟨"tx002", "Bob", "Charlie", "50.25"⟩

/-- Demo transaction 3. -/
def txC : Transaction := ⟨"tx003", "Charlie", "Dave", "75.00"⟩

/-- Demo transaction 4. -/
def txD : Transaction := ⟨"tx004", "Dave", "Eve", "25.75"⟩

/-- A hand-built tree value with a single leaf carrying digest `[1]`,
exercising `GenerateProof` on an arbitrary (not necessarily well-formed)
`MerkleTree` value. -/
def mtW : MerkleTree := ⟨dnode, [txA], [MerkleNode.mk none none [1]]⟩

/-! ### List helpers -/

/-- Induction on a list two elements at a time, matching the pairing
recursions above. -/
theorem twoStepInduction {α : Type} {P : List α → Prop} (h0 : P []) (h1 : ∀ a, P [a])
    (h2 : ∀ a b rest, P rest → P (a :: b :: rest)) : ∀ l, P l
  | [] => h0
  | [a] => h1 a
  | a :: b :: rest => h2 a b rest (twoStepInduction h0 h1 h2 rest)

/-- The head of a nonempty list is a member. -/
theorem headD_mem {α : Type} (l : List α) (d : α) (h : l ≠ []) : l.headD d ∈ l := by
  cases l with
  | nil => exact absurd rfl h
  | cons a tl => simp

/-! ### Shape lemmas for pairing and padding -/

/-- Pairing halves the length (rounding down). -/
theorem pairUp_length : ∀ l : List MerkleNode, (pairUp l).length = l.length / 2 := by
  intro l
  induction l using twoStepInduction with
  | h0 => simp [pairUp]
  | h1 a => simp [pairUp]
  | h2 a b rest ih =>
    simp [pairUp, ih]
    omega

/-- The `k`-th parent combines the nodes at `2k` and `2k + 1`. -/
theorem pairUp_getD : ∀ l : List MerkleNode, ∀ k : Nat, 2 * k + 1 < l.length →
    (pairUp l).getD k dnode =
      NewMerkleNode (some (l.getD (2 * k) dnode)) (some (l.getD (2 * k + 1) dnode)) [] := by
  intro l
  induction l using twoStepInduction with
  | h0 => intro k hk; simp at hk
  | h1 a => intro k hk; simp at hk
  | h2 a b rest ih =>
    intro k hk
    match k with
    | 0 => simp [pairUp]
    | k + 1 =>
      have e2 : 2 * (k + 1) = 2 * k + 1 + 1 := by omega
      rw [e2]
      simp only [pairUp, List.getD_cons_succ]
      exact ih k (by simp at hk; omega)

/-- Length of the inner-level padding. -/
theorem padLevel_length (l : List MerkleNode) :
    (padLevel l).length =
      if l.length % 2 ≠ 0 ∧ 1 < l.length then l.length + 1 else l.length := by
  unfold padLevel
  split
  · rename_i h
    simp only [List.length_append, List.length_drop]
    omega
  · rfl

/-- Length of the leaf-level padding. -/
theorem padLeaves_length (l : List MerkleNode) :
    (padLeaves l).length = if l.length % 2 ≠ 0 then l.length + 1 else l.length := by
  unfold padLeaves
  split
  · rename_i h
    simp only [List.length_append, List.length_drop]
    omega
  · rfl

/-- The leaf level is always even after padding. -/
theorem padLeaves_even (l : List MerkleNode) : (padLeaves l).length % 2 = 0 := by
  rw [padLeaves_length]
  split <;> omega

/-- Padding never shrinks the leaf level. -/
theorem padLeaves_le (l : List MerkleNode) : l.length ≤ (padLeaves l).length := by
  rw [padLeaves_length]
  split <;> omega

/-- Inner padding preserves entries below the original length. -/
theorem padLevel_getD (l : List MerkleNode) (k : Nat) (h : k < l.length) :
    (padLevel l).getD k dnode = l.getD k dnode := by
  unfold padLevel
  split
  · exact List.getD_append _ _ _ _ h
  · rfl

/-- Leaf padding preserves entries below the original length. -/
theorem padLeaves_getD (l : List MerkleNode) (k : Nat) (h : k < l.length) :
    (padLeaves l).getD k dnode = l.getD k dnode := by
  unfold padLeaves
  split
  · exact List.getD_append _ _ _ _ h
  · rfl

/-- Away from singleton lists the two padding rules agree. -/
theorem padLeaves_eq_padLevel (l : List MerkleNode) (h : l.length ≠ 1) :
    padLeaves l = padLevel l := by
  unfold padLeaves padLevel
  by_cases he : l.length % 2 = 0
  · rw [if_neg (by omega), if_neg (by omega)]
  · rw [if_pos he, if_pos ⟨he, by omega⟩]

/-! ### Behaviour of one proof-generation level pass -/

/-- An internal pair node hashes the two child digests in order. -/
theorem NewMerkleNode_pair_Hash (a b : MerkleNode) (d : Bytes) :
    (NewMerkleNode (some a) (some b) d).Hash = sha256 (a.Hash ++ b.Hash) := rfl

/-- Below the scan position nothing is recorded: the pass only rebuilds the
parent level. -/
theorem genLevel_lt : ∀ l : List MerkleNode, ∀ i ci : Nat, ci < i →
    genLevel l i ci = ([], [], ci, pairUp l) := by
  intro l
  induction l using twoStepInduction with
  | h0 => intro i ci h; simp [genLevel, pairUp]
  | h1 a => intro i ci h; simp [genLevel, pairUp]
  | h2 a b rest ih =>
    intro i ci h
    simp only [genLevel, if_neg (by omega : ¬ i = ci), if_neg (by omega : ¬ i + 1 = ci),
      ih (i + 2) ci (by omega), pairUp]
    simp

/-- The pass at an even offset `j` from the scan position records the right
sibling of node `j`, halves the index, and rebuilds the parent level. -/
theorem genLevel_hit_even : ∀ l : List MerkleNode, ∀ i j : Nat, i % 2 = 0 → j % 2 = 0 →
    j < l.length → l.length % 2 = 0 →
    genLevel l i (i + j) =
      ([(l.getD (j + 1) dnode).Hash], [true], (i + j) / 2, pairUp l) := by
  intro l
  induction l using twoStepInduction with
  | h0 => intro i j _ _ hj _; simp at hj
  | h1 a => intro i j _ _ hj hlen; simp at hj hlen
  | h2 a b rest ih =>
    intro i j hi hj hjl hlen
    match j, hj with
    | 0, _ =>
      simp only [genLevel, if_pos (by omega : i = i + 0),
        genLevel_lt rest (i + 2) (i / 2) (by omega), pairUp]
      simp only [List.getD_cons_succ, List.getD_cons_zero]
      simp
    | j + 2, hj =>
      have hrw : i + (j + 2) = (i + 2) + j := by omega
      rw [hrw]
      simp only [genLevel, if_neg (by omega : ¬ i = i + 2 + j),
        if_neg (by omega : ¬ i + 1 = i + 2 + j),
        ih (i + 2) j (by omega) (by omega) (by simp at hjl; omega) (by simp at hlen; omega),
        pairUp]
      simp only [List.getD_cons_succ]
      simp

/-- The pass at an odd offset `j` records the left sibling of node `j`. -/
theorem genLevel_hit_odd : ∀ l : List MerkleNode, ∀ i j : Nat, i % 2 = 0 → j % 2 = 1 →
    j < l.length → l.length % 2 = 0 →
    genLevel l i (i + j) =
      ([(l.getD (j - 1) dnode).Hash], [false], (i + j) / 2, pairUp l) := by
  intro l
  induction l using twoStepInduction with
  | h0 => intro i j _ _ hj _; simp at hj
  | h1 a => intro i j _ _ hj hlen; simp at hj hlen
  | h2 a b rest ih =>
    intro i j hi hj hjl hlen
    match j, hj with
    | 1, _ =>
      have e0 : (i + 1) / 2 = i / 2 := by omega
      simp only [genLevel, if_neg (by omega : ¬ i = i + 1), if_pos (by omega : i + 1 = i + 1),
        if_true, genLevel_lt rest (i + 2) (i / 2) (by omega), pairUp, e0]
      simp
    | j + 3, hj =>
      have hrw : i + (j + 3) = (i + 2) + (j + 1) := by omega
      rw [hrw]
      simp only [genLevel, if_neg (by omega : ¬ i = i + 2 + (j + 1)),
        if_neg (by omega : ¬ i + 1 = i + 2 + (j + 1)),
        ih (i + 2) (j + 1) (by omega) (by omega) (by simp at hjl; omega)
          (by simp at hlen; omega),
        pairUp]
      have e1 : j + 3 - 1 = (j + 1 - 1) + 1 + 1 := by omega
      rw [e1]
      simp only [List.getD_cons_succ]
      simp

/-- Each pass records as many hashes as positions. -/
theorem genLevel_len_eq : ∀ l : List MerkleNode, ∀ i ci : Nat,
    (genLevel l i ci).1.length = (genLevel l i ci).2.1.length := by
  intro l
  induction l using twoStepInduction with
  | h0 => intro i ci; simp [genLevel]
  | h1 a => intro i ci; simp [genLevel]
  | h2 a b rest ih =>
    intro i ci
    by_cases h1 : i = ci
    · simp [genLevel, h1, ih]
    · by_cases h2 : i + 1 = ci
      · simp [genLevel, h1, h2, ih]
      · simp [genLevel, h1, h2, ih]

/-! ### The construction loop and the proof loop march through the same levels -/

/-- A level that is already reduced is left unchanged by the loop. -/
theorem buildLevels_stable : ∀ (fuel : Nat) (nodes : List MerkleNode), nodes.length ≤ 1 →
    buildLevels fuel nodes = nodes := by
  intro fuel
  induction fuel with
  | zero => intro nodes _; rfl
  | succ fuel ih =>
    intro nodes h
    simp only [buildLevels]
    rw [if_neg (by omega)]

/-- The verification loop succeeds whenever the positions list is at least as
long as the hashes list. -/
theorem verifyLoop_isSome : ∀ (hs : List Bytes) (ps : List Bool) (d : Bytes),
    hs.length ≤ ps.length → (verifyLoop d hs ps).isSome = true := by
  intro hs
  induction hs with
  | nil => intro ps d _; simp [verifyLoop]
  | cons h tl ih =>
    intro ps d hlen
    match ps with
    | [] => simp at hlen
    | p :: ps => exact ih ps _ (by simp at hlen ⊢; omega)

/-- Both result lists of the proof loop have the same length. -/
theorem genLoop_len_eq : ∀ (fuel : Nat) (nodes : List MerkleNode) (ci : Nat),
    (genLoop fuel nodes ci).1.length = (genLoop fuel nodes ci).2.length := by
  intro fuel
  induction fuel with
  | zero => intro nodes ci; rfl
  | succ fuel ih =>
    intro nodes ci
    simp only [genLoop]
    split
    · simp [genLevel_len_eq, ih]
    · rfl

/-- Soundness of one generated proof entry against the next level, and of the
whole loop against the construction loop: folding the collected siblings into
the digest at the current index yields the digest at the head of the fully
reduced level list. -/
theorem genLoop_correct : ∀ (fuel : Nat) (nodes : List MerkleNode) (ci : Nat),
    nodes.length ≤ fuel → ci < nodes.length → nodes.length % 2 = 0 ∨ nodes.length = 1 →
    verifyLoop ((nodes.getD ci dnode).Hash) (genLoop fuel nodes ci).1 (genLoop fuel nodes ci).2
      = some (((buildLevels fuel nodes).headD dnode).Hash) := by
  intro fuel
  induction fuel with
  | zero => intro nodes ci h1 h2 _; omega
  | succ fuel ih =>
    intro nodes ci h1 h2 h3
    by_cases hgt : 1 < nodes.length
    · have heven : nodes.length % 2 = 0 := by
        rcases h3 with h | h
        · exact h
        · omega
      have hbuild : buildLevels (fuel + 1) nodes = buildLevels fuel (padLevel (pairUp nodes)) := by
        simp only [buildLevels]; rw [if_pos hgt]
      have hnext_len : (padLevel (pairUp nodes)).length ≤ nodes.length - 1 := by
        rw [padLevel_length, pairUp_length]
        split <;> omega
      have hnext_inv : (padLevel (pairUp nodes)).length % 2 = 0 ∨
          (padLevel (pairUp nodes)).length = 1 := by
        rw [padLevel_length, pairUp_length]
        split <;> omega
      have hci2 : ci / 2 < (padLevel (pairUp nodes)).length := by
        rw [padLevel_length, pairUp_length]
        split <;> omega
      rcases Nat.mod_two_eq_zero_or_one ci with hc | hc
      · -- current node is a left child: record the right sibling
        have hhit := genLevel_hit_even nodes 0 ci (by omega) hc h2 heven
        simp only [Nat.zero_add] at hhit
        simp only [genLoop]
        rw [if_pos hgt, hhit]
        simp only [List.singleton_append]
        simp only [verifyLoop, if_true]
        have hkey : sha256 ((nodes.getD ci dnode).Hash ++ (nodes.getD (ci + 1) dnode).Hash)
            = ((padLevel (pairUp nodes)).getD (ci / 2) dnode).Hash := by
          rw [padLevel_getD _ _ (by rw [pairUp_length]; omega)]
          rw [pairUp_getD nodes (ci / 2) (by omega)]
          rw [NewMerkleNode_pair_Hash]
          have e1 : 2 * (ci / 2) = ci := by omega
          have e2 : 2 * (ci / 2) + 1 = ci + 1 := by omega
          rw [e2, e1]
        rw [hkey, hbuild]
        exact ih (padLevel (pairUp nodes)) (ci / 2) (by omega) hci2 hnext_inv
      · -- current node is a right child: record the left sibling
        have hhit := genLevel_hit_odd nodes 0 ci (by omega) hc h2 heven
        simp only [Nat.zero_add] at hhit
        simp only [genLoop]
        rw [if_pos hgt, hhit]
        simp only [List.singleton_append]
        simp only [verifyLoop, Bool.false_eq_true, if_false]
        have hkey : sha256 ((nodes.getD (ci - 1) dnode).Hash ++ (nodes.getD ci dnode).Hash)
            = ((padLevel (pairUp nodes)).getD (ci / 2) dnode).Hash := by
          rw [padLevel_getD _ _ (by rw [pairUp_length]; omega)]
          rw [pairUp_getD nodes (ci / 2) (by omega)]
          rw [NewMerkleNode_pair_Hash]
          have e1 : 2 * (ci / 2) = ci - 1 := by omega
          have e2 : 2 * (ci / 2) + 1 = ci := by omega
          rw [e2, e1]
        rw [hkey, hbuild]
        exact ih (padLevel (pairUp nodes)) (ci / 2) (by omega) hci2 hnext_inv
    · -- a single node: the loop is over and the proof is empty
      have hlen1 : nodes.length = 1 := by omega
      obtain ⟨x, hx⟩ : ∃ x, nodes = [x] := by
        cases nodes with
        | nil => simp at hlen1
        | cons a tl =>
          cases tl with
          | nil => exact ⟨a, rfl⟩
          | cons b tl2 => simp at hlen1
      subst hx
      have hci : ci = 0 := by simp at h2; omega
      subst hci
      simp only [genLoop]
      rw [if_neg (by omega)]
      rw [buildLevels_stable (fuel + 1) [x] (by simp)]
      simp [verifyLoop]

/-! ### Proof length -/

/-- Ceiling log of a doubled count. -/
theorem clog2_two_mul (m : Nat) (h : 1 ≤ m) : Nat.clog 2 (2 * m) = Nat.clog 2 m + 1 := by
  rw [Nat.clog_of_two_le (by norm_num) (by omega)]
  have e : (2 * m + 2 - 1) / 2 = m := by omega
  rw [e]

/-- Padding an odd count above one does not change the ceiling log. -/
theorem clog2_succ_of_odd (m : Nat) (h1 : m % 2 = 1) (h2 : 2 ≤ m) :
    Nat.clog 2 (m + 1) = Nat.clog 2 m := by
  apply Nat.le_antisymm
  · rw [← Nat.le_pow_iff_clog_le (by norm_num)]
    have hm := Nat.le_pow_clog (b := 2) (by norm_num) m
    have hpos : 0 < Nat.clog 2 m := Nat.clog_pos (by norm_num) h2
    obtain ⟨k, hk⟩ : ∃ k, Nat.clog 2 m = k + 1 := ⟨Nat.clog 2 m - 1, by omega⟩
    rw [hk] at hm ⊢
    have he : (2 : Nat) ^ (k + 1) % 2 = 0 := by
      rw [pow_succ]
      exact Nat.mul_mod_left _ _
    omega
  · exact Nat.clog_mono_right 2 (by omega)

/-- The proof loop emits exactly one entry per level: the proof length is the
ceiling log of the (even or single) node count. -/
theorem genLoop_clog : ∀ (fuel : Nat) (nodes : List MerkleNode) (ci : Nat),
    nodes.length ≤ fuel → ci < nodes.length → nodes.length % 2 = 0 ∨ nodes.length = 1 →
    (genLoop fuel nodes ci).1.length = Nat.clog 2 nodes.length := by
  intro fuel
  induction fuel with
  | zero => intro nodes ci h1 h2 _; omega
  | succ fuel ih =>
    intro nodes ci h1 h2 h3
    by_cases hgt : 1 < nodes.length
    · have heven : nodes.length % 2 = 0 := by
        rcases h3 with h | h
        · exact h
        · omega
      have hnext_len : (padLevel (pairUp nodes)).length ≤ nodes.length - 1 := by
        rw [padLevel_length, pairUp_length]
        split <;> omega
      have hnext_inv : (padLevel (pairUp nodes)).length % 2 = 0 ∨
          (padLevel (pairUp nodes)).length = 1 := by
        rw [padLevel_length, pairUp_length]
        split <;> omega
      have hci2 : ci / 2 < (padLevel (pairUp nodes)).length := by
        rw [padLevel_length, pairUp_length]
        split <;> omega
      have hrec := ih (padLevel (pairUp nodes)) (ci / 2) (by omega) hci2 hnext_inv
      have hstep : Nat.clog 2 (padLevel (pairUp nodes)).length + 1 = Nat.clog 2 nodes.length := by
        have e2 : nodes.length = 2 * (nodes.length / 2) := by omega
        rw [padLevel_length, pairUp_length]
        split
        · rename_i hcnd
          rw [clog2_succ_of_odd (nodes.length / 2) (by omega) (by omega)]
          conv_rhs => rw [e2]
          rw [clog2_two_mul _ (by omega)]
        · conv_rhs => rw [e2]
          rw [clog2_two_mul _ (by omega)]
      rcases Nat.mod_two_eq_zero_or_one ci with hc | hc
      · have hhit := genLevel_hit_even nodes 0 ci (by omega) hc h2 heven
        simp only [Nat.zero_add] at hhit
        simp only [genLoop]
        rw [if_pos hgt, hhit]
        simp only [List.singleton_append, List.length_cons]
        rw [hrec, hstep]
      · have hhit := genLevel_hit_odd nodes 0 ci (by omega) hc h2 heven
        simp only [Nat.zero_add] at hhit
        simp only [genLoop]
        rw [if_pos hgt, hhit]
        simp only [List.singleton_append, List.length_cons]
        rw [hrec, hstep]
    · have hlen1 : nodes.length = 1 := by omega
      simp only [genLoop]
      rw [if_neg (by omega), hlen1, Nat.clog_one_right]
      rfl

/-! ### The code construction against the specification's uniform padding rule -/

/-- With enough fuel, running the spec's loop (pad before pairing at every
level) equals running the code's loop after one leading pad. -/
theorem buildSpec_eq : ∀ (fuel : Nat) (nodes : List MerkleNode), nodes.length ≤ fuel →
    buildLevelsSpec fuel nodes = buildLevels fuel (padLevel nodes) := by
  intro fuel
  induction fuel with
  | zero =>
    intro nodes h
    have : nodes.length = 0 := by omega
    have he : nodes = [] := by
      cases nodes with
      | nil => rfl
      | cons a tl => simp at this
    subst he
    rfl
  | succ fuel ih =>
    intro nodes h
    by_cases hgt : 1 < nodes.length
    · have hpadgt : 1 < (padLevel nodes).length := by
        rw [padLevel_length]
        split <;> omega
      have hlen : (pairUp (padLevel nodes)).length ≤ fuel := by
        rw [pairUp_length, padLevel_length]
        split <;> omega
      simp only [buildLevelsSpec, buildLevels]
      rw [if_pos hgt, if_pos hpadgt]
      exact ih (pairUp (padLevel nodes)) hlen
    · have hpad : padLevel nodes = nodes := by
        unfold padLevel
        rw [if_neg (by omega)]
      rw [hpad, buildLevels_stable (fuel + 1) nodes (by omega),
        buildLevelsSpec, if_neg (by omega)]

/-! ### Structural invariants of built trees -/

/-- The parent of two good nodes is good: its digest is the hash of its
children's digests and it introduces no new leaf digest. -/
theorem goodNode_pair (digests : List Bytes) (a b : MerkleNode)
    (ha : goodNode digests a) (hb : goodNode digests b) :
    goodNode digests (NewMerkleNode (some a) (some b) []) := by
  obtain ⟨ha1, ha2⟩ := ha
  obtain ⟨hb1, hb2⟩ := hb
  constructor
  · simp [NewMerkleNode, wellHashed, optHash, ha1, hb1]
  · simp [NewMerkleNode, leafDigestsIn, ha2, hb2]

/-- Pairing preserves goodness of every node. -/
theorem pairUp_good (digests : List Bytes) : ∀ l : List MerkleNode,
    (∀ x ∈ l, goodNode digests x) → ∀ x ∈ pairUp l, goodNode digests x := by
  intro l
  induction l using twoStepInduction with
  | h0 => intro _ x hx; simp [pairUp] at hx
  | h1 a => intro _ x hx; simp [pairUp] at hx
  | h2 a b rest ih =>
    intro hall x hx
    simp only [pairUp, List.mem_cons] at hx
    rcases hx with hx | hx
    · subst hx
      exact goodNode_pair digests a b (hall a (by simp)) (hall b (by simp))
    · exact ih (fun y hy => hall y (by simp [hy])) x hx

/-- Duplicating the trailing node preserves goodness of every node. -/
theorem padLevel_good (digests : List Bytes) (l : List MerkleNode)
    (h : ∀ x ∈ l, goodNode digests x) : ∀ x ∈ padLevel l, goodNode digests x := by
  intro x hx
  unfold padLevel at hx
  split at hx
  · rcases List.mem_append.mp hx with hx | hx
    · exact h x hx
    · exact h x (List.drop_subset _ _ hx)
  · exact h x hx

/-- Leaf padding preserves goodness of every node. -/
theorem padLeaves_good (digests : List Bytes) (l : List MerkleNode)
    (h : ∀ x ∈ l, goodNode digests x) : ∀ x ∈ padLeaves l, goodNode digests x := by
  intro x hx
  unfold padLeaves at hx
  split at hx
  · rcases List.mem_append.mp hx with hx | hx
    · exact h x hx
    · exact h x (List.drop_subset _ _ hx)
  · exact h x hx

/-- The construction loop preserves goodness of every node. -/
theorem buildLevels_good (digests : List Bytes) : ∀ (fuel : Nat) (l : List MerkleNode),
    (∀ x ∈ l, goodNode digests x) → ∀ x ∈ buildLevels fuel l, goodNode digests x := by
  intro fuel
  induction fuel with
  | zero => intro l h; exact h
  | succ fuel ih =>
    intro l h
    simp only [buildLevels]
    split
    · exact ih _ (padLevel_good digests _ (pairUp_good digests l h))
    · exact h

/-- The construction loop never empties a nonempty level list. -/
theorem buildLevels_ne_nil : ∀ (fuel : Nat) (l : List MerkleNode), l ≠ [] →
    buildLevels fuel l ≠ [] := by
  intro fuel
  induction fuel with
  | zero => intro l h; exact h
  | succ fuel ih =>
    intro l h
    simp only [buildLevels]
    split
    · rename_i hgt
      apply ih
      have : (padLevel (pairUp l)).length ≠ 0 := by
        rw [padLevel_length, pairUp_length]
        split <;> omega
      intro hc
      rw [hc] at this
      simp at this
    · exact h

/-- Leaf padding never empties a list. -/
theorem padLeaves_ne_nil (l : List MerkleNode) (h : l ≠ []) : padLeaves l ≠ [] := by
  have h0 : l.length ≠ 0 := by
    intro hc
    exact h (List.eq_nil_of_length_eq_zero hc)
  have : (padLeaves l).length ≠ 0 := by
    rw [padLeaves_length]
    split <;> omega
  intro hc
  rw [hc] at this
  simp at this

/-! ### Injectivity of the hex rendering on byte lists -/

/-- Distinct hex digits below 16 render differently. -/
theorem hexDigit_inj : ∀ x < 16, ∀ y < 16, hexTable.getD x 'x' = hexTable.getD y 'x' → x = y := by
  decide

/-- On lists of genuine bytes, the hex character rendering is injective. -/
theorem hexChars_inj : ∀ l1 l2 : Bytes, (∀ b ∈ l1, b < 256) → (∀ b ∈ l2, b < 256) →
    hexChars l1 = hexChars l2 → l1 = l2 := by
  intro l1
  induction l1 with
  | nil =>
    intro l2 _ _ h
    cases l2 with
    | nil => rfl
    | cons b t => simp [hexChars] at h
  | cons a t1 ih =>
    intro l2 hb1 hb2 h
    cases l2 with
    | nil => simp [hexChars] at h
    | cons b t2 =>
      simp only [hexChars, List.cons.injEq] at h
      obtain ⟨hhi, hlo, htl⟩ := h
      have ha : a < 256 := hb1 a (by simp)
      have hb : b < 256 := hb2 b (by simp)
      have e1 : a / 16 = b / 16 := hexDigit_inj (a / 16) (by omega) (b / 16) (by omega) hhi
      have e2 : a % 16 = b % 16 := hexDigit_inj (a % 16) (by omega) (b % 16) (by omega) hlo
      have : a = b := by omega
      subst this
      rw [ih t2 (fun x hx => hb1 x (by simp [hx])) (fun x hx => hb2 x (by simp [hx])) htl]

/-- On lists of genuine bytes, `hexEncode` is injective. -/
theorem hexEncode_inj (l1 l2 : Bytes) (h1 : ∀ b ∈ l1, b < 256) (h2 : ∀ b ∈ l2, b < 256)
    (h : hexEncode l1 = hexEncode l2) : l1 = l2 := by
  apply hexChars_inj l1 l2 h1 h2
  have := congrArg String.data h
  simpa [hexEncode] using this

/-! ### Unfolding equations used to evaluate the operations symbolically -/

/-- A leaf node stores its data verbatim. -/
theorem NewMerkleNode_leaf_Hash (d : Bytes) : (NewMerkleNode none none d).Hash = d := rfl

/-- `NewMerkleTree` on a nonempty list: leaves, one leading pad, loop, head. -/
theorem NewMerkleTree_ok (txs : List Transaction) (h : ¬ txs.length = 0) :
    NewMerkleTree txs =
      .ok ⟨(buildLevels (padLeaves (txs.map fun tx => NewMerkleNode none none tx.Hash)).length
          (padLeaves (txs.map fun tx => NewMerkleNode none none tx.Hash))).headD dnode, txs,
        txs.map fun tx => NewMerkleNode none none tx.Hash⟩ := by
  simp only [NewMerkleTree]
  rw [if_neg h]

/-- `GenerateProof` on an in-range index: pad the leaves and run the loop. -/
theorem GenerateProof_ok (mt : MerkleTree) (txIndex : Int)
    (h : ¬ (txIndex < 0 ∨ (mt.Transactions.length : Int) ≤ txIndex)) :
    mt.GenerateProof txIndex =
      .ok ⟨(genLoop (padLeaves mt.Leaves).length (padLeaves mt.Leaves) txIndex.toNat).1,
        (genLoop (padLeaves mt.Leaves).length (padLeaves mt.Leaves) txIndex.toNat).2⟩ := by
  unfold MerkleTree.GenerateProof
  rw [if_neg h]

/-- The construction loop on a single padded leaf: the leaf is duplicated and
the root is their combination. -/
theorem buildLevels_pair (x : MerkleNode) :
    (buildLevels (padLeaves [x]).length (padLeaves [x])).headD dnode
      = NewMerkleNode (some x) (some x) [] := rfl

/-- The proof loop on a single padded leaf at index 0: one right-sibling
entry holding the duplicated leaf digest. -/
theorem genLoop_pair (x : MerkleNode) :
    genLoop (padLeaves [x]).length (padLeaves [x]) 0 = ([x.Hash], [true]) := rfl

/-- Unfolding equation for one pairing step. -/
theorem pairUp_cons (a b : MerkleNode) (rest : List MerkleNode) :
    pairUp (a :: b :: rest) = NewMerkleNode (some a) (some b) [] :: pairUp rest := rfl

/-- Pairing of the empty list. -/
theorem pairUp_nil : pairUp ([] : List MerkleNode) = [] := rfl

/-- An even leaf level is not padded. -/
theorem padLeaves_of_even (l : List MerkleNode) (h : l.length % 2 = 0) : padLeaves l = l := by
  unfold padLeaves
  rw [if_neg (by omega)]

/-- An even or reduced level is not padded. -/
theorem padLevel_id (l : List MerkleNode) (h : l.length % 2 = 0 ∨ l.length ≤ 1) :
    padLevel l = l := by
  unfold padLevel
  rw [if_neg (by omega)]

/-- Unfolding equation for one construction-loop iteration. -/
theorem buildLevels_step (fuel : Nat) (nodes : List MerkleNode) (h : 1 < nodes.length) :
    buildLevels (fuel + 1) nodes = buildLevels fuel (padLevel (pairUp nodes)) := by
  simp only [buildLevels]
  rw [if_pos h]

/-- Unfolding equation for one proof-loop iteration, with the level pass
already evaluated. -/
theorem genLoop_step (fuel : Nat) (nodes : List MerkleNode) (ci : Nat) (h : 1 < nodes.length)
    (hs1 : List Bytes) (ps1 : List Bool) (ci2 : Nat) (level : List MerkleNode)
    (hg : genLevel nodes 0 ci = (hs1, ps1, ci2, level)) :
    genLoop (fuel + 1) nodes ci =
      (hs1 ++ (genLoop fuel (padLevel level) ci2).1,
       ps1 ++ (genLoop fuel (padLevel level) ci2).2) := by
  simp only [genLoop]
  rw [if_pos h, hg]

/-- The proof loop stops on a reduced level. -/
theorem genLoop_stop (fuel : Nat) (nodes : List MerkleNode) (ci : Nat)
    (h : ¬ 1 < nodes.length) : genLoop (fuel + 1) nodes ci = ([], []) := by
  simp only [genLoop]
  rw [if_neg h]

/-- The construction loop on four leaves: two pair nodes under one root. -/
theorem buildLevels_four (x0 x1 x2 x3 : MerkleNode) :
    (buildLevels (padLeaves [x0, x1, x2, x3]).length (padLeaves [x0, x1, x2, x3])).headD dnode
      = NewMerkleNode (some (NewMerkleNode (some x0) (some x1) []))
          (some (NewMerkleNode (some x2) (some x3) [])) [] := by
  rw [padLeaves_of_even [x0, x1, x2, x3] (by simp)]
  have h2 : buildLevels [x0, x1, x2, x3].length [x0, x1, x2, x3]
      = buildLevels 3 (padLevel (pairUp [x0, x1, x2, x3])) := buildLevels_step 3 _ (by simp)
  rw [h2, pairUp_cons, pairUp_cons, pairUp_nil, padLevel_id _ (Or.inl (by simp))]
  have h3 : buildLevels 3 [NewMerkleNode (some x0) (some x1) [],
      NewMerkleNode (some x2) (some x3) []]
      = buildLevels 2 (padLevel (pairUp [NewMerkleNode (some x0) (some x1) [],
          NewMerkleNode (some x2) (some x3) []])) := buildLevels_step 2 _ (by simp)
  rw [h3, pairUp_cons, pairUp_nil, padLevel_id _ (Or.inr (by simp))]
  rw [buildLevels_stable 2 _ (by simp)]
  rfl

/-- The proof loop on four leaves at index 1: the left sibling at the leaf
level, then the right pair node. -/
theorem genLoop_four (x0 x1 x2 x3 : MerkleNode) :
    genLoop (padLeaves [x0, x1, x2, x3]).length (padLeaves [x0, x1, x2, x3]) 1
      = ([x0.Hash, (NewMerkleNode (some x2) (some x3) []).Hash], [false, true]) := by
  rw [padLeaves_of_even [x0, x1, x2, x3] (by simp)]
  have h2 : genLoop [x0, x1, x2, x3].length [x0, x1, x2, x3] 1
      = ([x0.Hash] ++ (genLoop 3 (padLevel [NewMerkleNode (some x0) (some x1) [],
            NewMerkleNode (some x2) (some x3) []]) 0).1,
         [false] ++ (genLoop 3 (padLevel [NewMerkleNode (some x0) (some x1) [],
            NewMerkleNode (some x2) (some x3) []]) 0).2) :=
    genLoop_step 3 _ 1 (by simp) [x0.Hash] [false] 0
      [NewMerkleNode (some x0) (some x1) [], NewMerkleNode (some x2) (some x3) []] rfl
  rw [h2, padLevel_id _ (Or.inl (by simp))]
  have h3 : genLoop 3 [NewMerkleNode (some x0) (some x1) [],
      NewMerkleNode (some x2) (some x3) []] 0
      = ([(NewMerkleNode (some x2) (some x3) []).Hash]
          ++ (genLoop 2 (padLevel [NewMerkleNode (some (NewMerkleNode (some x0) (some x1) []))
              (some (NewMerkleNode (some x2) (some x3) [])) []]) 0).1,
         [true] ++ (genLoop 2 (padLevel [NewMerkleNode (some (NewMerkleNode (some x0)
              (some x1) [])) (some (NewMerkleNode (some x2) (some x3) [])) []]) 0).2) :=
    genLoop_step 2 _ 0 (by simp) [(NewMerkleNode (some x2) (some x3) []).Hash] [true] 0
      [NewMerkleNode (some (NewMerkleNode (some x0) (some x1) []))
        (some (NewMerkleNode (some x2) (some x3) [])) []] rfl
  rw [h3, padLevel_id _ (Or.inr (by simp))]
  have h4 : genLoop 2 [NewMerkleNode (some (NewMerkleNode (some x0) (some x1) []))
      (some (NewMerkleNode (some x2) (some x3) [])) []] 0 = ([], []) :=
    genLoop_stop 1 _ 0 (by simp)
  rw [h4]
  simp

/-- Verification against a one-entry right-sibling proof. -/
theorem VerifyProof_one (d s r : Bytes) :
    VerifyProof d ⟨[s], [true]⟩ r
      = some (decide (hexEncode (sha256 (d ++ s)) = hexEncode r)) := rfl

/-- Verification against a left-then-right two-entry proof. -/
theorem VerifyProof_two (d s1 s2 r : Bytes) :
    VerifyProof d ⟨[s1, s2], [false, true]⟩ r
      = some (decide (hexEncode (sha256 (sha256 (s1 ++ d) ++ s2)) = hexEncode r)) := rfl

/-- The tree built from one transaction, in closed form. -/
theorem NewMerkleTree_single (t : Transaction) :
    NewMerkleTree [t] = .ok ⟨NewMerkleNode (some (NewMerkleNode none none t.Hash))
      (some (NewMerkleNode none none t.Hash)) [], [t], [NewMerkleNode none none t.Hash]⟩ := by
  rw [NewMerkleTree_ok [t] (by simp)]
  simp only [List.map_cons, List.map_nil]
  rw [buildLevels_pair]

/-! ### Claim theorems -/

/-- Claim C2: the Go `VerifyProof` is claimed total on malformed proofs, but a
proof whose `Positions` list is shorter than its `Hashes` list makes the loop
read `proof.Positions[i]` out of range: at the concrete input below the code
panics (modelled by `none`) instead of returning `false`. -/
theorem verifyProof_positions_oob : VerifyProof [] ⟨[[0]], []⟩ [] = none := rfl

/-- Claim C8: building from an empty transaction list yields exactly the
error and no tree, and an out-of-range index (negative or at least the
transaction count) makes `GenerateProof` yield exactly the error and no
proof, on any tree value; both operations are pure functions of the tree, so
no field of an existing tree is mutated. -/
theorem merkle_errors (mt : MerkleTree) (txIndex : Int)
    (h : txIndex < 0 ∨ (mt.Transactions.length : Int) ≤ txIndex) :
    NewMerkleTree [] = .error "cannot create Merkle tree with no transactions" ∧
    mt.GenerateProof txIndex = .error "transaction index out of bounds" := by
  refine ⟨rfl, ?_⟩
  unfold MerkleTree.GenerateProof
  rw [if_pos h]

theorem merkle_errors_witness :
    NewMerkleTree [] = .error "cannot create Merkle tree with no transactions" ∧
    MerkleTree.GenerateProof ⟨dnode, [], []⟩ 0 = .error "transaction index out of bounds" :=
  merkle_errors ⟨dnode, [], []⟩ 0 (by decide)

/-- Claim C9: with an empty `Hashes` list the verification loop does nothing,
so `VerifyProof` compares the hex renderings of the leaf digest and the
claimed root: on genuine byte lists it returns `some true` exactly when the
two are byte-for-byte equal, and any digest verifies against itself under the
empty proof regardless of the `Positions` list. -/
theorem verifyProof_emptyHashes (d r : Bytes) (ps : List Bool)
    (h1 : ∀ b ∈ d, b < 256) (h2 : ∀ b ∈ r, b < 256) :
    (VerifyProof d ⟨[], ps⟩ r = some true ↔ d = r) ∧
    VerifyProof d ⟨[], ps⟩ d = some true := by
  have e : ∀ x : Bytes, VerifyProof d ⟨[], ps⟩ x
      = some (decide (hexEncode d = hexEncode x)) := fun _ => rfl
  constructor
  · rw [e r]
    constructor
    · intro h
      have hd := of_decide_eq_true (Option.some.inj h)
      exact hexEncode_inj d r h1 h2 hd
    · intro h
      subst h
      simp
  · rw [e d]
    simp

theorem verifyProof_emptyHashes_witness : VerifyProof [0] ⟨[], []⟩ [0] = some true :=
  (verifyProof_emptyHashes [0] [0] [] (by decide) (by decide)).1.mpr rfl

/-- Claim C10: every proof `GenerateProof` returns has as many position flags
as sibling hashes (the two lists are appended in lockstep), so `VerifyProof`
never indexes `Positions` out of range on a generated proof: the loop always
completes with a boolean. -/
theorem generateProof_wellFormed (mt : MerkleTree) (txIndex : Int) (p : MerkleProof)
    (d r : Bytes) (h : mt.GenerateProof txIndex = .ok p) :
    p.Hashes.length = p.Positions.length ∧ (VerifyProof d p r).isSome = true := by
  unfold MerkleTree.GenerateProof at h
  split at h
  · exact absurd h (by simp)
  · simp only [Except.ok.injEq] at h
    subst h
    have hlen := genLoop_len_eq (padLeaves mt.Leaves).length (padLeaves mt.Leaves) txIndex.toNat
    refine ⟨hlen, ?_⟩
    have hsome := verifyLoop_isSome _ _ d (le_of_eq hlen)
    simp only [VerifyProof]
    cases hv : verifyLoop d (genLoop (padLeaves mt.Leaves).length (padLeaves mt.Leaves)
        txIndex.toNat).1 (genLoop (padLeaves mt.Leaves).length (padLeaves mt.Leaves)
        txIndex.toNat).2 with
    | none => rw [hv] at hsome; simp at hsome
    | some v => simp

theorem generateProof_wellFormed_witness :
    MerkleTree.GenerateProof mtW 0 = .ok ⟨[[1]], [true]⟩ ∧
    ((⟨[[1]], [true]⟩ : MerkleProof).Hashes.length
        = (⟨[[1]], [true]⟩ : MerkleProof).Positions.length ∧
      (VerifyProof [2] ⟨[[1]], [true]⟩ [3]).isSome = true) :=
  ⟨rfl, generateProof_wellFormed mtW 0 ⟨[[1]], [true]⟩ [2] [3] rfl⟩

/-- Claim C4 counterexample: the claimed rule pads a level iff it is odd AND
has more than one node, taking a level of exactly one node as the root
unpadded; but on a single transaction the code duplicates the lone leaf (its
leaf-level pad has no `> 1` guard), producing an internal root, while the
spec-rule construction keeps the leaf itself as root. -/
theorem paddingRule_claim_cex :
    (NewMerkleTree [txA]).map (fun tr => tr.Root.Left.isSome) = .ok true ∧
    (NewMerkleTreeSpec [txA]).map (fun tr => tr.Root.Left.isSome) = .ok false :=
  ⟨rfl, rfl⟩

/-- Claim C4 amended: for two or more transactions the code's construction
agrees exactly with the spec's uniform padding rule (odd AND greater than
one, at every level); for exactly one transaction the leaf level is padded
although it has a single node, so the root is the hash of the duplicated
leaf digest rather than the leaf itself. -/
theorem paddingRule_amended (txs : List Transaction) :
    (2 ≤ txs.length → NewMerkleTree txs = NewMerkleTreeSpec txs) ∧
    (txs.length = 1 →
      (NewMerkleTree txs).map (fun tr => tr.Root.Hash) =
        .ok (sha256 ((txs.map Transaction.Hash).getD 0 [] ++
          (txs.map Transaction.Hash).getD 0 []))) := by
  constructor
  · intro h2
    have hmaplen : (txs.map fun tx => NewMerkleNode none none tx.Hash).length = txs.length := by
      simp
    simp only [NewMerkleTree, NewMerkleTreeSpec]
    rw [if_neg (by omega), if_neg (by omega)]
    rw [padLeaves_eq_padLevel _ (by omega)]
    rw [buildSpec_eq ((padLevel (txs.map fun tx => NewMerkleNode none none tx.Hash)).length)
      (txs.map fun tx => NewMerkleNode none none tx.Hash)
      (by rw [padLevel_length]; split <;> omega)]
  · intro h1
    cases txs with
    | nil => simp at h1
    | cons t tl =>
      cases tl with
      | nil =>
        rw [NewMerkleTree_single t]
        simp only [Except.map, List.map_cons, List.map_nil, List.getD_cons_zero]
        rw [NewMerkleNode_pair_Hash, NewMerkleNode_leaf_Hash]
      | cons u tl2 => simp at h1

theorem paddingRule_amended_witness :
    NewMerkleTree [txA, txB] = NewMerkleTreeSpec [txA, txB] ∧
    (NewMerkleTree [txA]).map (fun tr => tr.Root.Hash) =
      .ok (sha256 (([txA].map Transaction.Hash).getD 0 [] ++
        ([txA].map Transaction.Hash).getD 0 [])) :=
  ⟨(paddingRule_amended [txA, txB]).1 (by decide), (paddingRule_amended [txA]).2 (by decide)⟩

/-- Claim C3 counterexample: the tree built from one transaction does not
have that transaction's digest as its root: the lone leaf is duplicated and
the root is `sha256(d ++ d)`, which differs from `d` at this concrete input. -/
theorem singleLeaf_claim_cex :
    (NewMerkleTree [txA]).map (fun tr => decide (tr.Root.Hash = txA.Hash)) = .ok false := rfl

/-- Claim C3 amended: building from one transaction succeeds, but the lone
leaf digest `d` is duplicated: the root is `sha256(d ++ d)` rather than `d`,
`GenerateProof 0` returns the one-entry proof `(d, sibling-on-right)` rather
than the empty proof, and that one-entry proof (not the empty one) verifies
against the root. -/
theorem singleLeaf_behaviour (t : Transaction) :
    ∃ tree, NewMerkleTree [t] = .ok tree ∧
      tree.Root.Hash = sha256 (t.Hash ++ t.Hash) ∧
      tree.GenerateProof 0 = .ok ⟨[t.Hash], [true]⟩ ∧
      VerifyProof t.Hash ⟨[t.Hash], [true]⟩ tree.Root.Hash = some true := by
  refine ⟨⟨NewMerkleNode (some (NewMerkleNode none none t.Hash))
      (some (NewMerkleNode none none t.Hash)) [], [t], [NewMerkleNode none none t.Hash]⟩,
    NewMerkleTree_single t, ?_, ?_, ?_⟩
  · show (NewMerkleNode (some (NewMerkleNode none none t.Hash))
        (some (NewMerkleNode none none t.Hash)) []).Hash = sha256 (t.Hash ++ t.Hash)
    rw [NewMerkleNode_pair_Hash, NewMerkleNode_leaf_Hash]
  · have hL : (⟨NewMerkleNode (some (NewMerkleNode none none t.Hash))
        (some (NewMerkleNode none none t.Hash)) [], [t],
        [NewMerkleNode none none t.Hash]⟩ : MerkleTree).Leaves
        = [NewMerkleNode none none t.Hash] := rfl
    have hq : genLoop (padLeaves [NewMerkleNode none none t.Hash]).length
        (padLeaves [NewMerkleNode none none t.Hash]) (Int.toNat 0) = ([t.Hash], [true]) := by
      show genLoop (padLeaves [NewMerkleNode none none t.Hash]).length
        (padLeaves [NewMerkleNode none none t.Hash]) 0 = _
      rw [genLoop_pair, NewMerkleNode_leaf_Hash]
    rw [GenerateProof_ok _ 0 (by simp), hL, hq]
  · show VerifyProof t.Hash ⟨[t.Hash], [true]⟩
      (NewMerkleNode (some (NewMerkleNode none none t.Hash))
        (some (NewMerkleNode none none t.Hash)) []).Hash = some true
    rw [NewMerkleNode_pair_Hash, NewMerkleNode_leaf_Hash, VerifyProof_one]
    simp

/-- Claim C1: round trip.  For every nonempty transaction list and every
in-range index, the proof generated for that index verifies the indexed
transaction digest against the built tree's root hash. -/
theorem merkle_roundTrip (txs : List Transaction) (i : Nat) (hi : i < txs.length) :
    ∃ tree proof, NewMerkleTree txs = .ok tree ∧ tree.GenerateProof (i : Int) = .ok proof ∧
      VerifyProof ((txs.map Transaction.Hash).getD i []) proof tree.Root.Hash = some true := by
  have hne : ¬ txs.length = 0 := by omega
  set leaves : List MerkleNode := txs.map fun tx => NewMerkleNode none none tx.Hash with hleaves
  set nodes : List MerkleNode := padLeaves leaves with hnodes
  have hlenmap : leaves.length = txs.length := by rw [hleaves]; simp
  have hinv : nodes.length % 2 = 0 ∨ nodes.length = 1 := Or.inl (padLeaves_even leaves)
  have hile : i < nodes.length := by
    have := padLeaves_le leaves
    rw [hnodes]
    omega
  refine ⟨⟨(buildLevels nodes.length nodes).headD dnode, txs, leaves⟩,
    ⟨(genLoop nodes.length nodes i).1, (genLoop nodes.length nodes i).2⟩,
    NewMerkleTree_ok txs hne, ?_, ?_⟩
  · have hb : ¬ ((i : Int) < 0 ∨ (txs.length : Int) ≤ (i : Int)) := by omega
    exact GenerateProof_ok _ _ hb
  · have hmain := genLoop_correct nodes.length nodes i (le_refl _) hile hinv
    have hdig : ((txs.map Transaction.Hash).getD i []) = (nodes.getD i dnode).Hash := by
      rw [hnodes, padLeaves_getD leaves i (by omega)]
      rw [List.getD_eq_getElem _ _ (by simp; omega), List.getD_eq_getElem _ _ (by omega)]
      simp [hleaves, NewMerkleNode_leaf_Hash]
    simp only [VerifyProof]
    rw [hdig, hmain]
    simp

theorem merkle_roundTrip_witness :
    ∃ tree proof, NewMerkleTree [txA, txB, txC] = .ok tree ∧
      tree.GenerateProof ((2 : Nat) : Int) = .ok proof ∧
      VerifyProof (([txA, txB, txC].map Transaction.Hash).getD 2 []) proof tree.Root.Hash
        = some true :=
  merkle_roundTrip [txA, txB, txC] 2 (by simp)

/-- Claim C7 counterexample: for a single transaction the claimed length
`ceil(log2(max(n,1))) = 0` disagrees with the generated proof, which has one
entry (the duplicated lone leaf's sibling). -/
theorem proofLength_claim_cex :
    (NewMerkleTree [txA]).map (fun tr => (tr.GenerateProof 0).map (fun p => p.Hashes.length))
      = .ok (.ok 1) ∧ Nat.clog 2 (max 1 1) = 0 :=
  ⟨rfl, by simp⟩

/-- Claim C7 amended: the generated proof's length is `ceil(log2 n_eff)`
where `n_eff` is the padded leaf count (`n` rounded up to even, so `2` when
`n = 1`); for `n ≥ 2` this equals `ceil(log2 n)` as claimed, while for
`n = 1` it is `1`, not `0`. -/
theorem proofLength_amended (txs : List Transaction) (i : Nat) (hi : i < txs.length) :
    ∃ tree proof, NewMerkleTree txs = .ok tree ∧ tree.GenerateProof (i : Int) = .ok proof ∧
      proof.Hashes.length
        = Nat.clog 2 (if txs.length % 2 = 0 then txs.length else txs.length + 1) ∧
      (2 ≤ txs.length → proof.Hashes.length = Nat.clog 2 txs.length) := by
  have hne : ¬ txs.length = 0 := by omega
  set leaves : List MerkleNode := txs.map fun tx => NewMerkleNode none none tx.Hash with hleaves
  set nodes : List MerkleNode := padLeaves leaves with hnodes
  have hlenmap : leaves.length = txs.length := by rw [hleaves]; simp
  have hinv : nodes.length % 2 = 0 ∨ nodes.length = 1 := Or.inl (padLeaves_even leaves)
  have hile : i < nodes.length := by
    have := padLeaves_le leaves
    rw [hnodes]
    omega
  have hnlen : nodes.length = if txs.length % 2 = 0 then txs.length else txs.length + 1 := by
    by_cases he : txs.length % 2 = 0
    · rw [hnodes, padLeaves_length, if_neg (by omega), if_pos he]
      omega
    · rw [hnodes, padLeaves_length, if_pos (by omega), if_neg he]
      omega
  have hclog := genLoop_clog nodes.length nodes i (le_refl _) hile hinv
  have hb : ¬ ((i : Int) < 0 ∨ (txs.length : Int) ≤ (i : Int)) := by omega
  refine ⟨⟨(buildLevels nodes.length nodes).headD dnode, txs, leaves⟩,
    ⟨(genLoop nodes.length nodes i).1, (genLoop nodes.length nodes i).2⟩,
    NewMerkleTree_ok txs hne, GenerateProof_ok _ _ hb, ?_, ?_⟩
  · rw [hclog, hnlen]
  · intro h2
    rw [hclog, hnlen]
    by_cases he : txs.length % 2 = 0
    · rw [if_pos he]
    · rw [if_neg he, clog2_succ_of_odd txs.length (by omega) (by omega)]

theorem proofLength_amended_witness :
    ∃ tree proof, NewMerkleTree [txA] = .ok tree ∧
      tree.GenerateProof ((0 : Nat) : Int) = .ok proof ∧
      proof.Hashes.length
        = Nat.clog 2 (if ([txA] : List Transaction).length % 2 = 0
            then ([txA] : List Transaction).length else ([txA] : List Transaction).length + 1) ∧
      (2 ≤ ([txA] : List Transaction).length →
        proof.Hashes.length = Nat.clog 2 ([txA] : List Transaction).length) :=
  proofLength_amended [txA] 0 (by simp)

/-- Claim C5: in every built tree, each internal node's digest is SHA-256 of
the concatenation of its left child's digest followed by its right child's
digest, the leaf node list wraps the input transaction digests verbatim
(no rehash), and every childless node in the root's subtree carries one of
the input digests verbatim. -/
theorem tree_hashing (txs : List Transaction) (h : txs.length ≠ 0) :
    ∃ tree, NewMerkleTree txs = .ok tree ∧
      tree.Leaves = txs.map (fun tx => MerkleNode.mk none none tx.Hash) ∧
      wellHashed tree.Root = true ∧
      leafDigestsIn (txs.map Transaction.Hash) tree.Root = true := by
  set leaves : List MerkleNode := txs.map fun tx => NewMerkleNode none none tx.Hash with hleaves
  set nodes : List MerkleNode := padLeaves leaves with hnodes
  have hbase : ∀ x ∈ leaves, goodNode (txs.map Transaction.Hash) x := by
    rw [hleaves]
    intro x hx
    obtain ⟨t, ht, rfl⟩ := List.mem_map.mp hx
    constructor
    · simp [NewMerkleNode, wellHashed]
    · simp only [NewMerkleNode, leafDigestsIn]
      simp only [decide_eq_true_eq]
      exact List.mem_map.mpr ⟨t, ht, rfl⟩
  have hall := buildLevels_good (txs.map Transaction.Hash) nodes.length nodes
    (by rw [hnodes]; exact padLeaves_good _ _ hbase)
  have hne2 : buildLevels nodes.length nodes ≠ [] := by
    apply buildLevels_ne_nil
    rw [hnodes]
    apply padLeaves_ne_nil
    rw [hleaves]
    intro hc
    rw [List.map_eq_nil_iff] at hc
    subst hc
    simp at h
  have hroot := hall _ (headD_mem _ dnode hne2)
  refine ⟨⟨(buildLevels nodes.length nodes).headD dnode, txs, leaves⟩,
    NewMerkleTree_ok txs h, ?_, hroot.1, hroot.2⟩
  rw [hleaves]
  rfl

theorem tree_hashing_witness :
    ∃ tree, NewMerkleTree [txA, txB, txC] = .ok tree ∧
      tree.Leaves = [txA, txB, txC].map (fun tx => MerkleNode.mk none none tx.Hash) ∧
      wellHashed tree.Root = true ∧
      leafDigestsIn ([txA, txB, txC].map Transaction.Hash) tree.Root = true :=
  tree_hashing [txA, txB, txC] (by simp)

/-- Claim C6: four leaves.  For all transactions `t0..t3` the root is
`H(H(d0||d1) || H(d2||d3))`, the proof for index 1 is exactly
`[(d0, left), (H(d2||d3), right)]`, and it verifies `d1` against the root;
at the repository's concrete demo transactions, verifying `d0` against that
same proof and root yields `false`. -/
theorem fourLeaf_scenario :
    (∀ t0 t1 t2 t3 : Transaction,
      ∃ tree proof,
        NewMerkleTree [t0, t1, t2, t3] = .ok tree ∧
        tree.Root.Hash = sha256 (sha256 (t0.Hash ++ t1.Hash) ++ sha256 (t2.Hash ++ t3.Hash)) ∧
        tree.GenerateProof 1 = .ok proof ∧
        proof = ⟨[t0.Hash, sha256 (t2.Hash ++ t3.Hash)], [false, true]⟩ ∧
        VerifyProof t1.Hash proof
          (sha256 (sha256 (t0.Hash ++ t1.Hash) ++ sha256 (t2.Hash ++ t3.Hash))) = some true) ∧
    VerifyProof txA.Hash ⟨[txA.Hash, sha256 (txC.Hash ++ txD.Hash)], [false, true]⟩
      (sha256 (sha256 (txA.Hash ++ txB.Hash) ++ sha256 (txC.Hash ++ txD.Hash))) = some false := by
  constructor
  · intro t0 t1 t2 t3
    have hmap : ([t0, t1, t2, t3].map fun tx => NewMerkleNode none none tx.Hash)
        = [NewMerkleNode none none t0.Hash, NewMerkleNode none none t1.Hash,
           NewMerkleNode none none t2.Hash, NewMerkleNode none none t3.Hash] := by
      simp
    have htree : NewMerkleTree [t0, t1, t2, t3] = .ok ⟨NewMerkleNode
        (some (NewMerkleNode (some (NewMerkleNode none none t0.Hash))
          (some (NewMerkleNode none none t1.Hash)) []))
        (some (NewMerkleNode (some (NewMerkleNode none none t2.Hash))
          (some (NewMerkleNode none none t3.Hash)) [])) [], [t0, t1, t2, t3],
        [NewMerkleNode none none t0.Hash, NewMerkleNode none none t1.Hash,
         NewMerkleNode none none t2.Hash, NewMerkleNode none none t3.Hash]⟩ := by
      rw [NewMerkleTree_ok _ (by simp), hmap, buildLevels_four]
    have hL : (⟨NewMerkleNode
        (some (NewMerkleNode (some (NewMerkleNode none none t0.Hash))
          (some (NewMerkleNode none none t1.Hash)) []))
        (some (NewMerkleNode (some (NewMerkleNode none none t2.Hash))
          (some (NewMerkleNode none none t3.Hash)) [])) [], [t0, t1, t2, t3],
        [NewMerkleNode none none t0.Hash, NewMerkleNode none none t1.Hash,
         NewMerkleNode none none t2.Hash, NewMerkleNode none none t3.Hash]⟩
          : MerkleTree).Leaves
        = [NewMerkleNode none none t0.Hash, NewMerkleNode none none t1.Hash,
           NewMerkleNode none none t2.Hash, NewMerkleNode none none t3.Hash] := rfl
    have hq : genLoop (padLeaves [NewMerkleNode none none t0.Hash,
        NewMerkleNode none none t1.Hash, NewMerkleNode none none t2.Hash,
        NewMerkleNode none none t3.Hash]).length
        (padLeaves [NewMerkleNode none none t0.Hash, NewMerkleNode none none t1.Hash,
          NewMerkleNode none none t2.Hash, NewMerkleNode none none t3.Hash]) (Int.toNat 1)
        = ([t0.Hash, sha256 (t2.Hash ++ t3.Hash)], [false, true]) := by
      show genLoop (padLeaves [NewMerkleNode none none t0.Hash,
        NewMerkleNode none none t1.Hash, NewMerkleNode none none t2.Hash,
        NewMerkleNode none none t3.Hash]).length
        (padLeaves [NewMerkleNode none none t0.Hash, NewMerkleNode none none t1.Hash,
          NewMerkleNode none none t2.Hash, NewMerkleNode none none t3.Hash]) 1 = _
      rw [genLoop_four]
      simp only [NewMerkleNode_pair_Hash, NewMerkleNode_leaf_Hash]
    refine ⟨_, ⟨[t0.Hash, sha256 (t2.Hash ++ t3.Hash)], [false, true]⟩, htree, ?_, ?_, rfl, ?_⟩
    · show (NewMerkleNode
        (some (NewMerkleNode (some (NewMerkleNode none none t0.Hash))
          (some (NewMerkleNode none none t1.Hash)) []))
        (some (NewMerkleNode (some (NewMerkleNode none none t2.Hash))
          (some (NewMerkleNode none none t3.Hash)) [])) []).Hash
        = sha256 (sha256 (t0.Hash ++ t1.Hash) ++ sha256 (t2.Hash ++ t3.Hash))
      simp only [NewMerkleNode_pair_Hash, NewMerkleNode_leaf_Hash]
    · rw [GenerateProof_ok _ 1 (by simp), hL, hq]
    · rw [VerifyProof_two]
      simp
  · decide
